import Mathlib

/-
Verification of the Fractal-Midi core (script.py) against its specification.

The script depends on the external mydy container library for the Track and
Event types and their operators (tick-mode conversion, time scaling by the
division operator, fractional self-repetition by the power operator, track
concatenation, derived length).  That library is not part of this repository,
so those operations are modelled from the specification's abstract Track
interface (sections 3, 4.3, 4.4 and 6 of the spec); each such definition is
marked "Modelled from the spec".  Everything else is translated directly from
script.py.  Ticks are modelled as rationals, standing for the real-valued
intermediate tick quantities described by the spec; rational division is total
in Lean (q / 0 = 0) whereas Python raises ZeroDivisionError, so every theorem
proved here either hypothesises the divisors away or fails before a division.
Failure (a Python exception escaping a function) is modelled with Option and
Except.
-/

namespace FractalMidi

/-- Modelled from the spec: the event data model of the external container
library.  A tagged variant of NoteOn, NoteOff, Meta and EndOfTrack, each
carrying a tick.  Following the data model of the spec, EndOfTrack is a
variant of its own, distinct from Meta. -/
inductive Event : Type
  | noteOn (pitch velocity : ℤ) (tick : ℚ)
  | noteOff (pitch velocity : ℤ) (tick : ℚ)
  | meta (kind : ℕ) (payload : List ℕ) (tick : ℚ)
  | endOfTrack (tick : ℚ)
deriving DecidableEq

/-- The tick carried by an event. -/
def Event.tick : Event → ℚ
  | .noteOn _ _ t => t
  | .noteOff _ _ t => t
  | .meta _ _ t => t
  | .endOfTrack t => t

/-- Replace the tick of an event, keeping everything else. -/
def Event.setTick : Event → ℚ → Event
  | .noteOn p v _, t => .noteOn p v t
  | .noteOff p v _, t => .noteOff p v t
  | .meta k d _, t => .meta k d t
  | .endOfTrack _, t => .endOfTrack t

/-- The isinstance(event, Events.NoteOnEvent) test of the source. -/
def Event.isNoteOn : Event → Bool
  | .noteOn _ _ _ => true
  | _ => false

/-- The isinstance(event, Events.EndOfTrackEvent) test of the source. -/
def Event.isEndOfTrack : Event → Bool
  | .endOfTrack _ => true
  | _ => false

/-- Modelled from the spec: the isinstance(event, Events.MetaEvent) test.  The
data model of the spec keeps EndOfTrack as a separate variant, so only Meta
events satisfy it. -/
def Event.isMeta : Event → Bool
  | .meta _ _ _ => true
  | _ => false

/-- The pitch field of a note event (0 for events without one; the source only
reads the pitch of NoteOn and NoteOff events). -/
def Event.pitchD : Event → ℤ
  | .noteOn p _ _ => p
  | .noteOff p _ _ => p
  | _ => 0

/-- Modelled from the spec: a track is an ordered sequence of events together
with its tick-mode flag (relative deltas when true, absolute offsets when
false). -/
structure Track : Type where
  events : List Event
  relative : Bool
deriving DecidableEq

/-- Modelled from the spec: running-sum pass turning relative deltas (with
accumulated offset acc) into absolute offsets. -/
def absAux (acc : ℚ) : List Event → List Event
  | [] => []
  | e :: rest => e.setTick (acc + e.tick) :: absAux (acc + e.tick) rest

/-- Modelled from the spec: successive-difference pass turning absolute
offsets into relative deltas, prev being the previous absolute offset. -/
def relAux (prev : ℚ) : List Event → List Event
  | [] => []
  | e :: rest => e.setTick (e.tick - prev) :: relAux e.tick rest

/-- Modelled from the spec: make_ticks_abs of the container library — convert
a relative track to absolute mode, leave an absolute track unchanged. -/
def Track.make_ticks_abs (t : Track) : Track :=
  if t.relative then ⟨absAux 0 t.events, false⟩ else t

/-- Modelled from the spec: make_ticks_rel of the container library — convert
an absolute track to relative mode, leave a relative track unchanged. -/
def Track.make_ticks_rel (t : Track) : Track :=
  if t.relative then t else ⟨relAux 0 t.events, true⟩

/-- Modelled from the spec: the derived track length — the sum of the deltas
in relative mode, the tick of the last event in absolute mode (0 for an empty
track). -/
def Track.length (t : Track) : ℚ :=
  if t.relative then (t.events.map Event.tick).sum
  else (t.events.map Event.tick).getLastD 0

/-- Modelled from the spec: scale(track, ratio), the division operator of the
container library — every tick divided by the ratio, order, content and mode
unchanged. -/
def Track.scale (t : Track) (ratio : ℚ) : Track :=
  ⟨t.events.map (fun e => e.setTick (e.tick / ratio)), t.relative⟩

/-- Modelled from the spec: k full back-to-back copies of an absolute-mode
event list, copy i rebased by i times len (the whole-copy loop of the Track
Repeater). -/
def repeatCopies (evs : List Event) (len : ℚ) : ℕ → List Event
  | 0 => []
  | k + 1 =>
    repeatCopies evs len k ++ evs.map (fun e => e.setTick (e.tick + (k : ℚ) * len))

/-- Modelled from the spec: the absolute-position event list of
repeat(track, n) — floor(n) full copies, each rebased by its index times the
track length, followed (when the fractional part f is positive) by the events
whose absolute tick is below f times the length, rebased by floor(n) times the
length. -/
def repeatAbsEvents (t : Track) (n : ℚ) : List Event :=
  let a := t.make_ticks_abs
  let len := t.length
  let k : ℕ := (⌊n⌋).toNat
  let f : ℚ := n - (k : ℚ)
  repeatCopies a.events len k ++
    (if 0 < f then
      (a.events.filter (fun e => decide (e.tick < f * len))).map
        (fun e => e.setTick (e.tick + (k : ℚ) * len))
     else [])

/-- Modelled from the spec: repeat(track, n), the power operator of the
container library; the result carries the mode of the input track. -/
def Track.repeatTrack (t : Track) (n : ℚ) : Track :=
  let res : Track := ⟨repeatAbsEvents t n, false⟩
  if t.relative then res.make_ticks_rel else res

/-- Modelled from the spec: track concatenation, the addition operator of the
container library — append the events, rebasing the second block by the length
of the first; in relative mode the deltas chain by themselves, so a plain
append realises the rebasing. -/
def Track.add (a b : Track) : Track :=
  if a.relative then ⟨a.events ++ b.events, a.relative⟩
  else ⟨a.events ++ b.events.map (fun e => e.setTick (e.tick + a.length)), false⟩

/-- Modelled from the spec: Track.append of the container library — add one
event at the end. -/
def Track.appendEvent (t : Track) (e : Event) : Track :=
  ⟨t.events ++ [e], t.relative⟩

/-- TWELVE_ROOT_TWO of the source: 2 ** (1 / 12), the equal-tempered semitone
ratio.  The Python float computation is modelled by exact real arithmetic. -/
noncomputable def TWELVE_ROOT_TWO : ℝ := (2 : ℝ) ^ ((1 : ℝ) / 12)

/-- Q_NOTE_PHRASE_LEN of the source: phrase repetitions per quarter note. -/
def Q_NOTE_PHRASE_LEN : ℚ := 16

/-- The loop of get_root: the pitch of the first NoteOn, none when there is no
NoteOn event (Python falls off the loop and returns None). -/
def rootAux : List Event → Option ℤ
  | [] => none
  | .noteOn p _ _ :: _ => some p
  | _ :: rest => rootAux rest

/-- get_root of the source.  Note that the source raises nothing here: a track
without a NoteOn event yields the implicit Python None, modelled by none. -/
def get_root (t : Track) : Option ℤ := rootAux t.events

/-- get_ratio of the source: TWELVE_ROOT_TWO raised to the semitone
difference. -/
noncomputable def get_ratio (root pitch : ℤ) : ℝ := TWELVE_ROOT_TWO ^ (pitch - root)

/-- The generator body of get_note_info: for every NoteOn event at position i
yield (pitch, track[i+1].tick, own tick); accessing position i+1 for a NoteOn
that is the last event raises IndexError, modelled by none. -/
def noteInfoAux : List Event → Option (List (ℤ × ℚ × ℚ))
  | [] => some []
  | .noteOn p _ tk :: rest =>
    match rest with
    | [] => none
    | next :: _ => (noteInfoAux rest).map (fun l => (p, next.tick, tk) :: l)
  | _ :: rest => noteInfoAux rest

/-- get_note_info of the source, with the lazy generator materialised as a
list (the pipeline consumes it in order, so the observable behaviour is the
same; an IndexError inside the generator is the none outcome). -/
def get_note_info (t : Track) : Option (List (ℤ × ℚ × ℚ)) := noteInfoAux t.events

/-- The assignment fract[0].tick = x of the source: replace the tick of the
first event; on an empty track the indexing raises IndexError, modelled by
none. -/
def setFirstTick (t : Track) (x : ℚ) : Option Track :=
  match t.events with
  | [] => none
  | e :: rest => some ⟨e.setTick x :: rest, t.relative⟩

/-- fractalize_note of the source.  The ratio function is rational-valued
here: the source passes a closure over the real-valued get_ratio, and the
rational tick model abstracts it as a parameter. -/
def fractalize_note (resolution : ℚ) (ratio_fn : ℤ → ℚ) (track : Track)
    (note_info : ℤ × ℚ × ℚ) : Option Track :=
  let pitch := note_info.1
  let duration := note_info.2.1
  let tick := note_info.2.2
  let quarter_notes := duration / resolution
  let ratio := ratio_fn pitch
  let repetitions := Q_NOTE_PHRASE_LEN * quarter_notes * ratio
  let fract := (track.scale ratio).repeatTrack repetitions
  setFirstTick fract (tick / resolution * track.length * Q_NOTE_PHRASE_LEN)

/-- The loop body of fix_mary: a NoteOn with velocity 0 becomes a NoteOff with
the same tick, pitch and velocity; every other event passes through. -/
def fixAux : List Event → List Event
  | [] => []
  | .noteOn p v tk :: rest =>
    (if v = 0 then Event.noteOff p v tk else Event.noteOn p v tk) :: fixAux rest
  | e :: rest => e :: fixAux rest

/-- fix_mary of the source: rewrite velocity-0 NoteOn events into NoteOff
events, keeping the mode flag of the input track. -/
def fix_mary (t : Track) : Track := ⟨fixAux t.events, t.relative⟩

/-- The single-event rewrite realised by fix_mary, used to state its
correctness. -/
def fixOne (e : Event) : Event :=
  match e with
  | .noteOn p v tk => if v = 0 then .noteOff p v tk else e
  | _ => e

/-- Recogniser for a velocity-0 NoteOn event. -/
def isZeroVelOn : Event → Bool
  | .noteOn _ v _ => v = 0
  | _ => false

/-- The loop of split_header_meta_events: scan for the first event that is not
a Meta event; when found at index i return the slices track[:i] and track[i:];
when the whole track is Meta events (or empty) fall through and return an
empty track together with the original track. -/
def shmAux (t : Track) (hdr : List Event) : List Event → Track × Track
  | [] => (⟨[], t.relative⟩, t)
  | e :: rest =>
    if e.isMeta then shmAux t (hdr ++ [e]) rest
    else (⟨hdr, t.relative⟩, ⟨e :: rest, t.relative⟩)

/-- split_header_meta_events of the source. -/
def split_header_meta_events (t : Track) : Track × Track := shmAux t [] t.events

/-- The sort key of sort_ticks: e.tick * 10 + isinstance(e, NoteOnEvent), with
the Python boolean read as 0 or 1. -/
def sortKey (e : Event) : ℚ := e.tick * 10 + (if e.isNoteOn then 1 else 0)

/-- Comparison by sort key. -/
def keyLe (a b : Event) : Prop := sortKey a ≤ sortKey b

instance : DecidableRel keyLe :=
  fun a b => inferInstanceAs (Decidable (sortKey a ≤ sortKey b))

instance : IsTotal Event keyLe := ⟨fun a b => le_total (sortKey a) (sortKey b)⟩

instance : IsTrans Event keyLe := ⟨fun _ _ _ hab hbc => le_trans hab hbc⟩

/-- sort_ticks of the source: make ticks absolute, sort stably by the key
(Python's sorted is a stable sort, modelled by insertion sort), rebuild an
absolute track and convert it back to relative mode. -/
def sort_ticks (t : Track) : Track :=
  let a := t.make_ticks_abs
  (Track.mk (List.insertionSort keyLe a.events) false).make_ticks_rel

/-- Ordering by tick. -/
def tickLe (a b : Event) : Prop := Event.tick a ≤ Event.tick b

instance : DecidableRel tickLe :=
  fun a b => inferInstanceAs (Decidable (Event.tick a ≤ Event.tick b))

/-- The ordering the Tick Sorter is claimed to produce: nondecreasing ticks,
and at a shared tick a NoteOn event never precedes an event that is not a
NoteOn. -/
def tickOrdered (a b : Event) : Prop :=
  Event.tick a ≤ Event.tick b ∧
    (Event.tick a = Event.tick b → a.isNoteOn = true → b.isNoteOn = true)

instance : DecidableRel tickOrdered :=
  fun a b =>
    inferInstanceAs (Decidable (Event.tick a ≤ Event.tick b ∧
      (Event.tick a = Event.tick b → a.isNoteOn = true → b.isNoteOn = true)))

/-- The Python exceptions that can escape fractalize_track.  The spec posits
an EmptyMelodyError, but nothing in the source defines or raises such an
error; the constructor is kept so that statements about it can be written.
typeError covers reduce() of an empty iterable, indexError covers out-of-range
track indexing. -/
inductive Err : Type
  | emptyMelody
  | typeError
  | indexError
deriving DecidableEq

/-- fractalize_track of the source.  The real-valued get_ratio closure is
abstracted as the rational-valued parameter grq (see fractalize_note); the
stages and the order of the raised exceptions follow the source: sort, root,
header split, the track[-1] terminator check (IndexError on an empty body),
the generator consumption inside reduce (IndexError from track[i+1] or from
fract[0], TypeError from reducing an empty sequence), the final rescaling
division and the header reattachment. -/
def fractalize_track (grq : ℤ → ℤ → ℚ) (resolution : ℚ) (track0 : Track) :
    Except Err Track :=
  let track1 := sort_ticks track0
  let rootO := get_root track1
  let hb := split_header_meta_events track1
  match hb.2.events.getLast? with
  | none => .error .indexError
  | some lastEv =>
    let body2 : Track :=
      if lastEv.isEndOfTrack then ⟨hb.2.events.dropLast, hb.2.relative⟩ else hb.2
    let endeventO : Option Event := if lastEv.isEndOfTrack then some lastEv else none
    match get_note_info track1 with
    | none => .error .indexError
    | some tuples =>
      match rootO with
      | none => .error .typeError
      | some root =>
        match tuples.mapM (fractalize_note resolution (fun p => grq root p) body2) with
        | none => .error .indexError
        | some [] => .error .typeError
        | some (b :: bs) =>
          let fractal0 := bs.foldl Track.add b
          let fractal1 :=
            match endeventO with
            | some e => fractal0.appendEvent e
            | none => fractal0
          let fractal2 := fractal1.scale (body2.length / resolution * Q_NOTE_PHRASE_LEN)
          .ok (hb.1.add fractal2)

/-! ### Basic lemmas about events and tick-mode conversion -/

@[simp]
theorem Event.tick_setTick (e : Event) (x : ℚ) : (e.setTick x).tick = x := by
  cases e <;> rfl

@[simp]
theorem Event.setTick_setTick (e : Event) (x y : ℚ) :
    (e.setTick x).setTick y = e.setTick y := by
  cases e <;> rfl

@[simp]
theorem Event.setTick_tick (e : Event) : e.setTick e.tick = e := by
  cases e <;> rfl

@[simp]
theorem Event.isNoteOn_setTick (e : Event) (x : ℚ) :
    (e.setTick x).isNoteOn = e.isNoteOn := by
  cases e <;> rfl

@[simp]
theorem Event.isMeta_setTick (e : Event) (x : ℚ) :
    (e.setTick x).isMeta = e.isMeta := by
  cases e <;> rfl

@[simp]
theorem Event.isEndOfTrack_setTick (e : Event) (x : ℚ) :
    (e.setTick x).isEndOfTrack = e.isEndOfTrack := by
  cases e <;> rfl

theorem absAux_relAux (l : List Event) : ∀ p : ℚ, absAux p (relAux p l) = l := by
  induction l with
  | nil => intro p; rfl
  | cons e rest ih =>
    intro p
    simp only [relAux, absAux, Event.tick_setTick, Event.setTick_setTick]
    rw [show p + (e.tick - p) = e.tick by ring, Event.setTick_tick, ih e.tick]

theorem absAux_length (l : List Event) : ∀ p, (absAux p l).length = l.length := by
  induction l with
  | nil => intro p; rfl
  | cons e rest ih => intro p; simp [absAux, ih]

theorem relAux_length (l : List Event) : ∀ p, (relAux p l).length = l.length := by
  induction l with
  | nil => intro p; rfl
  | cons e rest ih => intro p; simp [relAux, ih]

theorem mem_absAux {l : List Event} {e : Event} :
    ∀ {p : ℚ}, e ∈ absAux p l → ∃ e0 ∈ l, ∃ q, e = e0.setTick q := by
  induction l with
  | nil => intro p h; simp [absAux] at h
  | cons a rest ih =>
    intro p h
    rcases (by simpa [absAux] using h) with h1 | h2
    · exact ⟨a, by simp, p + a.tick, h1⟩
    · obtain ⟨e0, he0, q, hq⟩ := ih h2
      exact ⟨e0, by simp [he0], q, hq⟩

theorem mem_relAux {l : List Event} {e : Event} :
    ∀ {p : ℚ}, e ∈ relAux p l → ∃ e0 ∈ l, ∃ q, e = e0.setTick q := by
  induction l with
  | nil => intro p h; simp [relAux] at h
  | cons a rest ih =>
    intro p h
    rcases (by simpa [relAux] using h) with h1 | h2
    · exact ⟨a, by simp, a.tick - p, h1⟩
    · obtain ⟨e0, he0, q, hq⟩ := ih h2
      exact ⟨e0, by simp [he0], q, hq⟩

theorem sum_relAux (l : List Event) :
    ∀ p, ((relAux p l).map Event.tick).sum = (l.map Event.tick).getLastD p - p := by
  induction l with
  | nil => intro p; simp [relAux]
  | cons e rest ih =>
    intro p
    simp only [relAux, List.map_cons, List.sum_cons, Event.tick_setTick,
      List.getLastD_cons]
    rw [ih e.tick]
    ring

theorem getLastD_absAux (l : List Event) :
    ∀ p, ((absAux p l).map Event.tick).getLastD p = p + (l.map Event.tick).sum := by
  induction l with
  | nil => intro p; simp [absAux]
  | cons e rest ih =>
    intro p
    simp only [absAux, List.map_cons, List.sum_cons, Event.tick_setTick,
      List.getLastD_cons]
    rw [ih (p + e.tick)]
    ring

/-- The derived length is invariant under conversion to absolute mode (a
property the spec states for the abstract Track). -/
theorem Track.length_make_ticks_abs (t : Track) : t.make_ticks_abs.length = t.length := by
  rcases t with ⟨evs, rel⟩
  cases rel
  · rfl
  · simp only [Track.make_ticks_abs, Track.length, if_true, if_false]
    simpa using getLastD_absAux evs 0

/-- The derived length is invariant under conversion to relative mode. -/
theorem Track.length_make_ticks_rel (t : Track) : t.make_ticks_rel.length = t.length := by
  rcases t with ⟨evs, rel⟩
  cases rel
  · simp only [Track.make_ticks_rel, Track.length, if_true, if_false]
    simpa using sum_relAux evs 0
  · rfl

theorem Track.length_eq_abs_getLastD (t : Track) :
    t.length = ((t.make_ticks_abs.events).map Event.tick).getLastD 0 := by
  rcases t with ⟨evs, rel⟩
  cases rel
  · rfl
  · simp only [Track.make_ticks_abs, Track.length, if_true, if_false]
    simpa using (getLastD_absAux evs 0).symm

/-! ### Lemmas about sort_ticks -/

theorem sort_ticks_eq (t : Track) :
    sort_ticks t =
      ⟨relAux 0 (List.insertionSort keyLe t.make_ticks_abs.events), true⟩ := by
  simp [sort_ticks, Track.make_ticks_rel]

theorem make_ticks_abs_sort_ticks (t : Track) :
    (sort_ticks t).make_ticks_abs =
      ⟨List.insertionSort keyLe t.make_ticks_abs.events, false⟩ := by
  rw [sort_ticks_eq]
  simp only [Track.make_ticks_abs, if_true]
  rw [absAux_relAux]

theorem sort_ticks_idem (t : Track) : sort_ticks (sort_ticks t) = sort_ticks t := by
  rw [sort_ticks_eq (sort_ticks t), make_ticks_abs_sort_ticks, sort_ticks_eq t]
  have hs : List.Sorted keyLe (List.insertionSort keyLe t.make_ticks_abs.events) :=
    List.sorted_insertionSort keyLe t.make_ticks_abs.events
  rw [List.Sorted.insertionSort_eq hs]

/-! ### Lemmas about get_root and get_note_info -/

theorem rootAux_eq_find (l : List Event) :
    rootAux l = (l.find? (fun e => e.isNoteOn)).map Event.pitchD := by
  induction l with
  | nil => rfl
  | cons e rest ih =>
    cases e with
    | noteOn p v tk => simp [rootAux, List.find?, Event.isNoteOn, Event.pitchD]
    | noteOff p v tk => simpa [rootAux, List.find?, Event.isNoteOn] using ih
    | meta k d tk => simpa [rootAux, List.find?, Event.isNoteOn] using ih
    | endOfTrack tk => simpa [rootAux, List.find?, Event.isNoteOn] using ih

theorem rootAux_of_noOn {l : List Event} (h : ∀ e ∈ l, e.isNoteOn = false) :
    rootAux l = none := by
  rw [rootAux_eq_find, List.find?_eq_none.mpr, Option.map_none']
  intro e he
  simp [h e he]

theorem noteInfoAux_of_noOn {l : List Event} (h : ∀ e ∈ l, e.isNoteOn = false) :
    noteInfoAux l = some [] := by
  induction l with
  | nil => rfl
  | cons e rest ih =>
    have hrest : ∀ x ∈ rest, x.isNoteOn = false := fun x hx => h x (by simp [hx])
    cases e with
    | noteOn p v tk => simpa [Event.isNoteOn] using h (.noteOn p v tk) (by simp)
    | noteOff p v tk => simpa [noteInfoAux] using ih hrest
    | meta k d tk => simpa [noteInfoAux] using ih hrest
    | endOfTrack tk => simpa [noteInfoAux] using ih hrest

theorem noteInfoAux_complete {l : List Event}
    (h : ∀ i (hi : i < l.length), (l[i]).isNoteOn = true → i + 1 < l.length) :
    ∃ r, noteInfoAux l = some r ∧
      r.length = (l.filter (fun e => e.isNoteOn)).length := by
  induction l with
  | nil => exact ⟨[], rfl, rfl⟩
  | cons e rest ih =>
    have hrest : ∀ i (hi : i < rest.length), (rest[i]).isNoteOn = true →
        i + 1 < rest.length := by
      intro i hi hOn
      have h3 := h (i + 1) (by simpa using Nat.succ_lt_succ hi) (by simpa using hOn)
      rw [List.length_cons] at h3
      omega
    obtain ⟨r, hr, hlen⟩ := ih hrest
    cases e with
    | noteOn p v tk =>
      have h0 := h 0 (by simp) (by simp [Event.isNoteOn])
      match rest, hr, hlen, h0 with
      | next :: rs, hr, hlen, _ =>
        refine ⟨(p, next.tick, tk) :: r, ?_, ?_⟩
        · simp [noteInfoAux, hr]
        · simp [List.filter_cons, Event.isNoteOn, hlen]
    | noteOff p v tk =>
      exact ⟨r, by simpa [noteInfoAux] using hr,
        by simpa [List.filter_cons, Event.isNoteOn] using hlen⟩
    | meta k d tk =>
      exact ⟨r, by simpa [noteInfoAux] using hr,
        by simpa [List.filter_cons, Event.isNoteOn] using hlen⟩
    | endOfTrack tk =>
      exact ⟨r, by simpa [noteInfoAux] using hr,
        by simpa [List.filter_cons, Event.isNoteOn] using hlen⟩

theorem noteInfoAux_lastOn :
    ∀ {l : List Event} (h : l ≠ []), (l.getLast h).isNoteOn = true →
      noteInfoAux l = none := by
  intro l
  induction l with
  | nil => intro h; exact absurd rfl h
  | cons e rest ih =>
    intro hcons hOn
    cases rest with
    | nil =>
      cases e with
      | noteOn p v tk => rfl
      | noteOff p v tk => simp [List.getLast_singleton, Event.isNoteOn] at hOn
      | meta k d tk => simp [List.getLast_singleton, Event.isNoteOn] at hOn
      | endOfTrack tk => simp [List.getLast_singleton, Event.isNoteOn] at hOn
    | cons x xs =>
      have hne : x :: xs ≠ [] := by simp
      have hlast : ((x :: xs).getLast hne).isNoteOn = true := by
        rw [← List.getLast_cons hne]
        exact hOn
      have hnone := ih hne hlast
      cases e with
      | noteOn p v tk => simp [noteInfoAux, hnone]
      | noteOff p v tk => simpa [noteInfoAux] using hnone
      | meta k d tk => simpa [noteInfoAux] using hnone
      | endOfTrack tk => simpa [noteInfoAux] using hnone

/-! ### Lemmas about split_header_meta_events -/

theorem shmAux_all (t : Track) :
    ∀ (l : List Event) (hdr : List Event), (∀ e ∈ l, e.isMeta = true) →
      shmAux t hdr l = (⟨[], t.relative⟩, t) := by
  intro l
  induction l with
  | nil => intro hdr _; rfl
  | cons e rest ih =>
    intro hdr h
    have he : e.isMeta = true := h e (by simp)
    simp only [shmAux, he, if_true]
    exact ih (hdr ++ [e]) (fun x hx => h x (by simp [hx]))

theorem shmAux_ex (t : Track) :
    ∀ (l : List Event) (hdr : List Event), (∃ e ∈ l, e.isMeta = false) →
      shmAux t hdr l =
        (⟨hdr ++ l.takeWhile (fun e => e.isMeta), t.relative⟩,
         ⟨l.dropWhile (fun e => e.isMeta), t.relative⟩) := by
  intro l
  induction l with
  | nil => intro hdr h; simp at h
  | cons e rest ih =>
    intro hdr h
    by_cases he : e.isMeta = true
    · have hrest : ∃ x ∈ rest, x.isMeta = false := by
        obtain ⟨x, hx, hxm⟩ := h
        rcases (by simpa using hx) with h1 | h2
        · rw [h1] at hxm; rw [hxm] at he; cases he
        · exact ⟨x, h2, hxm⟩
      simp only [shmAux, he, if_true, List.takeWhile_cons, List.dropWhile_cons]
      rw [ih (hdr ++ [e]) hrest]
      simp
    · have he' : e.isMeta = false := by simpa using he
      simp [shmAux, he', List.takeWhile_cons, List.dropWhile_cons]

theorem split_body_rel (t : Track) :
    (split_header_meta_events t).2.relative = t.relative := by
  by_cases h : ∀ e ∈ t.events, e.isMeta = true
  · rw [split_header_meta_events, shmAux_all t t.events [] h]
  · have hex : ∃ e ∈ t.events, e.isMeta = false := by
      push_neg at h
      obtain ⟨e, he, hm⟩ := h
      exact ⟨e, he, by simpa using hm⟩
    rw [split_header_meta_events, shmAux_ex t t.events [] hex]

theorem split_body_ne (t : Track) (h : t.events ≠ []) :
    (split_header_meta_events t).2.events ≠ [] := by
  by_cases hall : ∀ e ∈ t.events, e.isMeta = true
  · rw [split_header_meta_events, shmAux_all t t.events [] hall]
    exact h
  · have hex : ∃ e ∈ t.events, e.isMeta = false := by
      push_neg at hall
      obtain ⟨e, he, hm⟩ := hall
      exact ⟨e, he, by simpa using hm⟩
    rw [split_header_meta_events, shmAux_ex t t.events [] hex]
    intro hnil
    rw [List.dropWhile_eq_nil_iff] at hnil
    obtain ⟨e, he, hm⟩ := hex
    rw [hnil e he] at hm
    cases hm

/-! ### Lemmas about fix_mary -/

theorem fixAux_getElem (l : List Event) :
    ∀ i : ℕ, (fixAux l)[i]? = (l[i]?).map fixOne := by
  induction l with
  | nil => intro i; cases i <;> rfl
  | cons e rest ih =>
    intro i
    cases i with
    | zero =>
      cases e with
      | noteOn p v tk =>
        by_cases hv : v = 0 <;> simp [fixAux, fixOne, hv]
      | noteOff p v tk => simp [fixAux, fixOne]
      | meta k d tk => simp [fixAux, fixOne]
      | endOfTrack tk => simp [fixAux, fixOne]
    | succ j =>
      cases e with
      | noteOn p v tk => simpa [fixAux] using ih j
      | noteOff p v tk => simpa [fixAux] using ih j
      | meta k d tk => simpa [fixAux] using ih j
      | endOfTrack tk => simpa [fixAux] using ih j

theorem fixAux_length (l : List Event) : (fixAux l).length = l.length := by
  induction l with
  | nil => rfl
  | cons e rest ih =>
    cases e with
    | noteOn p v tk => simp [fixAux, ih]
    | noteOff p v tk => simp [fixAux, ih]
    | meta k d tk => simp [fixAux, ih]
    | endOfTrack tk => simp [fixAux, ih]

theorem fixAux_noZeroVelOn (l : List Event) :
    ∀ e ∈ fixAux l, isZeroVelOn e = false := by
  induction l with
  | nil => intro e he; simp [fixAux] at he
  | cons a rest ih =>
    intro e he
    cases a with
    | noteOn p v tk =>
      rcases (by simpa [fixAux] using he) with h1 | h2
      · by_cases hv : v = 0
        · simp only [hv, if_true] at h1
          simp [h1, isZeroVelOn]
        · simp only [hv, if_false] at h1
          simp [h1, isZeroVelOn, hv]
      · exact ih e h2
    | noteOff p v tk =>
      rcases (by simpa [fixAux] using he) with h1 | h2
      · simp [h1, isZeroVelOn]
      · exact ih e h2
    | meta k d tk =>
      rcases (by simpa [fixAux] using he) with h1 | h2
      · simp [h1, isZeroVelOn]
      · exact ih e h2
    | endOfTrack tk =>
      rcases (by simpa [fixAux] using he) with h1 | h2
      · simp [h1, isZeroVelOn]
      · exact ih e h2

/-! ### Lemmas about the Track Repeater -/

theorem repeatCopies_eq_flatMap (evs : List Event) (len : ℚ) :
    ∀ k : ℕ, repeatCopies evs len k =
      (List.range k).flatMap
        (fun i => evs.map (fun e => e.setTick (e.tick + (i : ℚ) * len))) := by
  intro k
  induction k with
  | zero => rfl
  | succ k ih =>
    rw [repeatCopies, ih, List.range_succ, List.flatMap_append]
    simp

theorem mem_repeatCopies {evs : List Event} {len : ℚ} :
    ∀ {k : ℕ} {e : Event}, e ∈ repeatCopies evs len k →
      ∃ e0 ∈ evs, ∃ i : ℕ, i < k ∧ e = e0.setTick (e0.tick + (i : ℚ) * len) := by
  intro k
  induction k with
  | zero => intro e h; simp [repeatCopies] at h
  | succ k ih =>
    intro e h
    rcases (by simpa [repeatCopies] using h : e ∈ repeatCopies evs len k ∨ _) with h1 | h2
    · obtain ⟨e0, he0, i, hik, heq⟩ := ih h1
      exact ⟨e0, he0, i, Nat.lt_succ_of_lt hik, heq⟩
    · obtain ⟨e0, he0, heq⟩ := h2
      exact ⟨e0, he0, k, Nat.lt_succ_self k, heq.symm⟩

theorem pairwise_le_getLastD :
    ∀ {l : List ℚ}, l.Pairwise (· ≤ ·) → ∀ x ∈ l, x ≤ l.getLastD 0 := by
  intro l
  induction l with
  | nil => intro _ x hx; simp at hx
  | cons y rest ih =>
    intro hp x hx
    rw [List.pairwise_cons] at hp
    cases rest with
    | nil =>
      have hxy : x = y := by simpa using hx
      subst hxy
      simp [List.getLastD]
    | cons z zs =>
      have hne : z :: zs ≠ [] := by simp
      have hlastD : ((y :: z :: zs).getLastD 0) = (z :: zs).getLast hne := by
        rw [List.getLastD_cons, List.getLastD_eq_getLast?,
          List.getLast?_eq_getLast _ hne, Option.getD_some]
      rw [hlastD]
      rcases (by simpa using hx : x = y ∨ x ∈ z :: zs) with h1 | h2
      · subst h1
        exact hp.1 _ (List.getLast_mem hne)
      · have hx' := ih hp.2 x h2
        have hlastD2 : ((z :: zs).getLastD 0) = (z :: zs).getLast hne := by
          rw [List.getLastD_eq_getLast?, List.getLast?_eq_getLast _ hne, Option.getD_some]
        rwa [hlastD2] at hx'

/-! ### The sort key on integer ticks -/

theorem keyLe_tickOrdered {a b : Event} (ha : (Event.tick a).den = 1)
    (hb : (Event.tick b).den = 1) (h : keyLe a b) : tickOrdered a b := by
  have hma : ((Event.tick a).num : ℚ) = Event.tick a := (Rat.den_eq_one_iff _).mp ha
  have hmb : ((Event.tick b).num : ℚ) = Event.tick b := (Rat.den_eq_one_iff _).mp hb
  rw [keyLe, sortKey, sortKey] at h
  constructor
  · by_contra hlt
    push_neg at hlt
    have hZ : (Event.tick b).num < (Event.tick a).num := by
      have hcast : ((Event.tick b).num : ℚ) < ((Event.tick a).num : ℚ) := by
        rw [hma, hmb]
        exact hlt
      exact_mod_cast hcast
    have hQ : ((Event.tick b).num : ℚ) + 1 ≤ ((Event.tick a).num : ℚ) := by
      exact_mod_cast hZ
    rw [hma, hmb] at hQ
    have hfa : (0 : ℚ) ≤ (if a.isNoteOn then (1 : ℚ) else 0) := by
      split <;> norm_num
    have hfb : (if b.isNoteOn then (1 : ℚ) else 0) ≤ 1 := by
      split <;> norm_num
    linarith
  · intro heq hOn
    by_cases hb' : b.isNoteOn = true
    · exact hb'
    · exfalso
      rw [heq, hOn, if_neg hb'] at h
      have h1 : b.tick * 10 + 1 ≤ b.tick * 10 := by simpa using h
      linarith

/-! ### Transport lemmas through sorting -/

theorem noOn_make_ticks_abs {t : Track} (h : ∀ e ∈ t.events, e.isNoteOn = false) :
    ∀ e ∈ t.make_ticks_abs.events, e.isNoteOn = false := by
  rcases t with ⟨evs, rel⟩
  cases rel
  · intro e he
    exact h e (by simpa [Track.make_ticks_abs] using he)
  · intro e he
    have he' : e ∈ absAux 0 evs := by simpa [Track.make_ticks_abs] using he
    obtain ⟨e0, he0, q, rfl⟩ := mem_absAux he'
    simpa using h e0 he0

theorem sort_ticks_events_len (t : Track) :
    (sort_ticks t).events.length = t.events.length := by
  rw [sort_ticks_eq]
  show (relAux 0 _).length = _
  rw [relAux_length, (List.perm_insertionSort keyLe _).length_eq]
  rcases t with ⟨evs, rel⟩
  cases rel <;> simp [Track.make_ticks_abs, absAux_length]

theorem noOn_sort_ticks {t : Track} (h : ∀ e ∈ t.events, e.isNoteOn = false) :
    ∀ e ∈ (sort_ticks t).events, e.isNoteOn = false := by
  rw [sort_ticks_eq]
  intro e he
  obtain ⟨e1, he1, q, rfl⟩ := mem_relAux he
  have he2 : e1 ∈ t.make_ticks_abs.events :=
    (List.perm_insertionSort keyLe _).mem_iff.mp he1
  simpa using noOn_make_ticks_abs h e1 he2

theorem repeatTrack_relative (t : Track) (n : ℚ) :
    (t.repeatTrack n).relative = t.relative := by
  rcases t with ⟨evs, rel⟩
  cases rel <;> simp [Track.repeatTrack, Track.make_ticks_rel]

theorem repeatTrack_abs_events (t : Track) (n : ℚ) :
    (t.repeatTrack n).make_ticks_abs.events = repeatAbsEvents t n := by
  rcases t with ⟨evs, rel⟩
  cases rel
  · simp [Track.repeatTrack, Track.make_ticks_abs]
  · simp [Track.repeatTrack, Track.make_ticks_rel, Track.make_ticks_abs, absAux_relAux]

theorem repeatTrack_length (t : Track) (n : ℚ) :
    (t.repeatTrack n).length = ((repeatAbsEvents t n).map Event.tick).getLastD 0 := by
  rcases t with ⟨evs, rel⟩
  cases rel
  · simp [Track.repeatTrack, Track.length]
  · calc (Track.repeatTrack ⟨evs, true⟩ n).length
        = (Track.make_ticks_rel ⟨repeatAbsEvents ⟨evs, true⟩ n, false⟩).length := by
          simp [Track.repeatTrack]
    _ = (Track.mk (repeatAbsEvents ⟨evs, true⟩ n) false).length :=
          Track.length_make_ticks_rel ⟨repeatAbsEvents ⟨evs, true⟩ n, false⟩
    _ = ((repeatAbsEvents ⟨evs, true⟩ n).map Event.tick).getLastD 0 := by
          simp [Track.length]

theorem getLastD_mem_of_ne {l : List ℚ} (h : l ≠ []) : l.getLastD 0 ∈ l := by
  rw [List.getLastD_eq_getLast?, List.getLast?_eq_getLast _ h, Option.getD_some]
  exact List.getLast_mem h

end FractalMidi

namespace FractalMidi

/-! ### The claims -/

/-- C7: the Tick Sorter is idempotent — applying sort_ticks twice yields the
same track (same events, same ticks, same order, same mode) as applying it
once. -/
theorem c7_sort_ticks_idempotent (t : Track) :
    sort_ticks (sort_ticks t) = sort_ticks t :=
  sort_ticks_idem t

/-- C9: the Ratio Calculator satisfies ratio(p, p) = 1, ratio(p, p+12) = 2 and
ratio(p, p-12) = 1/2 for every integer pitch p, with ratio(root, pitch) the
twelfth root of two raised to the semitone difference. -/
theorem c9_get_ratio_values (p : ℤ) :
    get_ratio p p = 1 ∧ get_ratio p (p + 12) = 2 ∧ get_ratio p (p - 12) = 1 / 2 := by
  have h2 : (0 : ℝ) ≤ 2 := by norm_num
  refine ⟨?_, ?_, ?_⟩
  · simp [get_ratio]
  · rw [get_ratio, show p + 12 - p = (12 : ℤ) by ring, TWELVE_ROOT_TWO,
      ← Real.rpow_intCast ((2 : ℝ) ^ ((1 : ℝ) / 12)) 12, ← Real.rpow_mul h2]
    norm_num
  · rw [get_ratio, show p - 12 - p = (-12 : ℤ) by ring, TWELVE_ROOT_TWO,
      ← Real.rpow_intCast ((2 : ℝ) ^ ((1 : ℝ) / 12)) (-12), ← Real.rpow_mul h2]
    rw [show (1 : ℝ) / 12 * ((-12 : ℤ) : ℝ) = -1 by push_cast; ring]
    rw [Real.rpow_neg h2, Real.rpow_one]
    norm_num

/-- C8: the Note Normalizer fix_mary keeps the mode flag, preserves the event
count, rewrites position by position — a velocity-0 NoteOn becomes a NoteOff
with the same tick, pitch and velocity, every other event is unchanged — and
its output contains no velocity-0 NoteOn. -/
theorem c8_fix_mary_normalizes (t : Track) :
    (fix_mary t).relative = t.relative ∧
    (fix_mary t).events.length = t.events.length ∧
    (∀ i : ℕ, (fix_mary t).events[i]? = (t.events[i]?).map fixOne) ∧
    (∀ e ∈ (fix_mary t).events, isZeroVelOn e = false) :=
  ⟨rfl, fixAux_length t.events, fixAux_getElem t.events, fixAux_noZeroVelOn t.events⟩

/-- C8 witness: the theorem applied to a concrete two-event track. -/
theorem c8_witness :
    (fix_mary ⟨[Event.noteOn 60 0 0, Event.meta 1 [] 4], true⟩).events[0]? =
      some (Event.noteOff 60 0 0) ∧
    isZeroVelOn (Event.meta 1 [] 4) = false := by
  constructor
  · have h := (c8_fix_mary_normalizes ⟨[Event.noteOn 60 0 0, Event.meta 1 [] 4], true⟩).2.2.1 0
    rw [h]
    norm_num [fixOne]
  · exact (c8_fix_mary_normalizes ⟨[Event.noteOn 60 0 0, Event.meta 1 [] 4], true⟩).2.2.2
      (Event.meta 1 [] 4) (by norm_num [fix_mary, fixAux])

/-- C10: whenever every NoteOn of a track is followed by at least one further
event, get_note_info succeeds and yields one tuple per NoteOn; when the last
event of a track is a NoteOn, the positional track[i+1] lookup is out of range
and get_note_info fails. -/
theorem c10_get_note_info_safety (t : Track) :
    ((∀ i (hi : i < t.events.length), (t.events[i]).isNoteOn = true →
        i + 1 < t.events.length) →
      ∃ r, get_note_info t = some r ∧
        r.length = (t.events.filter (fun e => e.isNoteOn)).length) ∧
    (∀ h : t.events ≠ [], (t.events.getLast h).isNoteOn = true →
      get_note_info t = none) :=
  ⟨fun h => noteInfoAux_complete h, fun h hOn => noteInfoAux_lastOn h hOn⟩

/-- C10 witness: the theorem applied to two concrete tracks, one whose NoteOn
is followed by a NoteOff and one ending in a NoteOn. -/
theorem c10_witness :
    (∃ r, get_note_info ⟨[Event.noteOn 60 100 0, Event.noteOff 60 0 4], true⟩ = some r ∧
      r.length = (([Event.noteOn 60 100 0, Event.noteOff 60 0 4]).filter
        (fun e => e.isNoteOn)).length) ∧
    get_note_info ⟨[Event.noteOff 60 0 4, Event.noteOn 60 100 0], true⟩ = none := by
  constructor
  · exact (c10_get_note_info_safety ⟨[Event.noteOn 60 100 0, Event.noteOff 60 0 4], true⟩).1
      (by decide)
  · exact (c10_get_note_info_safety ⟨[Event.noteOff 60 0 4, Event.noteOn 60 100 0], true⟩).2
      (by simp) (by decide)

/-- C5 counterexample: on a track consisting entirely of Meta events the claim
predicts the pair (whole track, empty), but split_header_meta_events falls
through its loop and returns the empty header and the whole track as body. -/
theorem c5_cex :
    split_header_meta_events ⟨[Event.meta 0 [] 0], true⟩ ≠
      (⟨[Event.meta 0 [] 0], true⟩, ⟨[], true⟩) := by
  simp [split_header_meta_events, shmAux, Event.isMeta]

/-- C5 as amended: when the track has at least one event that is not a Meta
event, the header is the maximal leading run of Meta events and the body is
the rest; when every event is a Meta event (in particular for an empty
track), the header is an empty track of the same mode and the body is the
whole original track. -/
theorem c5_split_header (t : Track) :
    ((∃ e ∈ t.events, e.isMeta = false) →
      split_header_meta_events t =
        (⟨t.events.takeWhile (fun e => e.isMeta), t.relative⟩,
         ⟨t.events.dropWhile (fun e => e.isMeta), t.relative⟩)) ∧
    ((∀ e ∈ t.events, e.isMeta = true) →
      split_header_meta_events t = (⟨[], t.relative⟩, t)) := by
  constructor
  · intro hex
    rw [split_header_meta_events, shmAux_ex t t.events [] hex]
    simp
  · intro hall
    rw [split_header_meta_events, shmAux_all t t.events [] hall]

/-- C5 witness: the theorem applied to a track with a header and a note, and
to an all-Meta track. -/
theorem c5_witness :
    split_header_meta_events ⟨[Event.meta 0 [] 0, Event.noteOn 60 100 0], true⟩ =
      (⟨[Event.meta 0 [] 0], true⟩, ⟨[Event.noteOn 60 100 0], true⟩) ∧
    split_header_meta_events ⟨[Event.meta 0 [] 0], false⟩ =
      (⟨[], false⟩, ⟨[Event.meta 0 [] 0], false⟩) := by
  constructor
  · have h := (c5_split_header ⟨[Event.meta 0 [] 0, Event.noteOn 60 100 0], true⟩).1
      (by decide)
    rw [h]
    norm_num [List.takeWhile, List.dropWhile, Event.isMeta]
  · exact (c5_split_header ⟨[Event.meta 0 [] 0], false⟩).2 (by decide)

/-- C6 counterexample: the sort key tick * 10 + isNoteOn only respects tick
order when ticks are at least a tenth apart.  On a track whose NoteOff sits at
absolute tick 1/20 (ticks are real-valued mid-pipeline), the NoteOff's key 1/2
undercuts the tick-0 NoteOn's key 1, so the sorted output has decreasing
absolute ticks, refuting the claimed ordering for arbitrary tracks. -/
theorem c6_cex :
    ¬ List.Pairwise tickOrdered
      ((sort_ticks ⟨[Event.noteOn 60 1 0, Event.noteOff 60 0 (1/20)], true⟩).make_ticks_abs.events) := by
  rw [make_ticks_abs_sort_ticks]
  have hev : List.insertionSort keyLe
      (Track.mk [Event.noteOn 60 1 0, Event.noteOff 60 0 (1/20)] true).make_ticks_abs.events =
      [Event.noteOff 60 0 (1/20), Event.noteOn 60 1 0] := by
    norm_num [Track.make_ticks_abs, absAux, List.insertionSort, List.orderedInsert,
      keyLe, sortKey, Event.isNoteOn, Event.setTick, Event.tick]
  rw [hev]
  intro hp
  rw [List.pairwise_cons] at hp
  have h1 := (hp.1 (Event.noteOn 60 1 0) (by simp)).1
  norm_num [Event.tick] at h1

/-- C6 as amended: for every track whose absolute ticks are integers (as in
any MIDI input track), the Tick Sorter's output is in nondecreasing
absolute-tick order, and at a shared absolute tick no NoteOn event precedes a
non-NoteOn event. -/
theorem c6_sort_ticks_order (t : Track)
    (h : ∀ e ∈ t.make_ticks_abs.events, (Event.tick e).den = 1) :
    List.Pairwise tickOrdered ((sort_ticks t).make_ticks_abs.events) := by
  rw [make_ticks_abs_sort_ticks]
  have hs : List.Pairwise keyLe (List.insertionSort keyLe t.make_ticks_abs.events) :=
    List.sorted_insertionSort keyLe t.make_ticks_abs.events
  refine List.Pairwise.imp_of_mem ?_ hs
  intro a b hma hmb hr
  exact keyLe_tickOrdered
    (h a ((List.perm_insertionSort keyLe _).mem_iff.mp hma))
    (h b ((List.perm_insertionSort keyLe _).mem_iff.mp hmb)) hr

/-- C6 witness: the theorem applied to a two-event integer-tick track. -/
theorem c6_witness :
    List.Pairwise tickOrdered
      ((sort_ticks ⟨[Event.noteOn 60 100 1, Event.noteOff 60 64 2], true⟩).make_ticks_abs.events) :=
  c6_sort_ticks_order ⟨[Event.noteOn 60 100 1, Event.noteOff 60 64 2], true⟩
    (by norm_num [Track.make_ticks_abs, absAux, Event.setTick, Event.tick])

/-- C1 counterexample: with resolution 1, the constant ratio function 1 and
duration 0, the repetition count is 0, the repeated track is empty, and the
source's fract[0].tick assignment raises IndexError instead of returning, so
the claim fails for that note tuple. -/
theorem c1_cex :
    fractalize_note 1 (fun _ => 1) ⟨[Event.noteOn 60 100 0], true⟩ (60, 0, 0) = none := by
  norm_num [fractalize_note, Track.scale, Track.repeatTrack, repeatAbsEvents,
    Track.make_ticks_abs, Track.make_ticks_rel, Track.length, absAux, relAux,
    repeatCopies, setFirstTick, Event.setTick, Event.tick, Q_NOTE_PHRASE_LEN]

/-- C1 as amended: for every nonzero resolution, nonvanishing ratio function,
reference track and note tuple (pitch, duration, onsetTick), fractalize_note
builds repeat(scale(track, ratio), PHRASE_LEN * (duration / resolution) *
ratio) with ratio the note's ratio to the root and PHRASE_LEN = 16; when that
repeated track is nonempty the function returns it with its first event's
tick replaced by onsetTick / resolution * length(track) * PHRASE_LEN, and when
it is empty the repositioning of the first event fails (IndexError). -/
theorem c1_fractalize_note (res : ℚ) (rf : ℤ → ℚ) (tr : Track) (p : ℤ) (d tk : ℚ)
    (_hres : res ≠ 0) (_hrf : rf p ≠ 0) :
    (((tr.scale (rf p)).repeatTrack (Q_NOTE_PHRASE_LEN * (d / res) * rf p)).events = [] →
        fractalize_note res rf tr (p, d, tk) = none) ∧
    (∀ e rest,
      ((tr.scale (rf p)).repeatTrack (Q_NOTE_PHRASE_LEN * (d / res) * rf p)).events =
          e :: rest →
        fractalize_note res rf tr (p, d, tk) =
          some ⟨e.setTick (tk / res * tr.length * Q_NOTE_PHRASE_LEN) :: rest,
            ((tr.scale (rf p)).repeatTrack (Q_NOTE_PHRASE_LEN * (d / res) * rf p)).relative⟩) := by
  constructor
  · intro hnil
    simp [fractalize_note, setFirstTick, hnil]
  · intro e rest hcons
    simp [fractalize_note, setFirstTick, hcons]

/-- C1 witness: resolution 1, ratio 1, a one-event track and duration 1/16
give exactly one repetition; the block is the single event repositioned. -/
theorem c1_witness :
    fractalize_note 1 (fun _ => 1) ⟨[Event.noteOn 60 100 0], true⟩ (60, 1/16, 0) =
      some ⟨[Event.noteOn 60 100 0], true⟩ := by
  have h := (c1_fractalize_note 1 (fun _ => 1) ⟨[Event.noteOn 60 100 0], true⟩ 60 (1/16) 0
      (by norm_num) (by norm_num)).2 (Event.noteOn 60 100 0) []
      (by norm_num [Track.scale, Track.repeatTrack, repeatAbsEvents, Track.make_ticks_abs,
        Track.make_ticks_rel, Track.length, absAux, relAux, repeatCopies, Event.setTick,
        Event.tick, Q_NOTE_PHRASE_LEN])
  rw [h]
  norm_num [Track.scale, Track.repeatTrack, repeatAbsEvents, Track.make_ticks_abs,
    Track.make_ticks_rel, Track.length, absAux, relAux, repeatCopies, Event.setTick,
    Event.tick, Q_NOTE_PHRASE_LEN]

/-- C4 counterexample: on an absolute two-event track of length 100,
repeat with n = 1/2 keeps only the tick-0 event, so the derived length of the
result is 0 and not n times the length (50): the exact-length clause of the
claim fails for fractional repetitions. -/
theorem c4_cex :
    (Track.repeatTrack ⟨[Event.noteOn 60 100 0, Event.noteOff 60 0 100], false⟩ (1/2)).length ≠
      (1/2) * (Track.mk [Event.noteOn 60 100 0, Event.noteOff 60 0 100] false).length := by
  norm_num [Track.repeatTrack, repeatAbsEvents, Track.make_ticks_abs, Track.make_ticks_rel,
    Track.length, repeatCopies, Event.tick, Event.setTick, List.filter]

/-- C4 as amended: repeat(t, n) preserves the mode flag; in absolute view it
consists of floor(n) full copies, each rebased by its index times length(t),
followed, when the fractional part is positive, by the events with absolute
tick below the fractional part times length(t) rebased by floor(n) times
length(t); repeat(t, 0) is an empty track; and for n at least 0, on a track
with nondecreasing nonnegative absolute ticks the derived length of the
result is at most n times length(t) — it equals the absolute tick of the last
surviving event, so exact equality does not hold in general. -/
theorem c4_repeatTrack (t : Track) (n : ℚ) :
    ((t.repeatTrack n).relative = t.relative) ∧
    ((t.repeatTrack n).make_ticks_abs.events =
      (List.range (⌊n⌋).toNat).flatMap
        (fun i => t.make_ticks_abs.events.map
          (fun e => e.setTick (e.tick + (i : ℚ) * t.length))) ++
      (if 0 < n - ((⌊n⌋).toNat : ℚ) then
        (t.make_ticks_abs.events.filter
          (fun e => decide (e.tick < (n - ((⌊n⌋).toNat : ℚ)) * t.length))).map
          (fun e => e.setTick (e.tick + ((⌊n⌋).toNat : ℚ) * t.length))
       else [])) ∧
    (t.repeatTrack 0 = ⟨[], t.relative⟩) ∧
    (0 ≤ n →
      ((t.make_ticks_abs.events.map Event.tick).Pairwise (· ≤ ·)) →
      (∀ e ∈ t.make_ticks_abs.events, 0 ≤ e.tick) →
      (t.repeatTrack n).length ≤ n * t.length) := by
  refine ⟨repeatTrack_relative t n, ?_, ?_, ?_⟩
  · rw [repeatTrack_abs_events]
    simp only [repeatAbsEvents]
    rw [repeatCopies_eq_flatMap]
  · have hz : repeatAbsEvents t 0 = [] := by
      simp [repeatAbsEvents, repeatCopies]
    rcases t with ⟨evs, rel⟩
    cases rel <;>
      simp [Track.repeatTrack, hz, Track.make_ticks_rel, relAux]
  · intro hn hsort hnn
    have hlenlast := Track.length_eq_abs_getLastD t
    have hlen0 : 0 ≤ t.length := by
      by_cases hemp : t.make_ticks_abs.events = []
      · rw [hlenlast, hemp]
        simp
      · have hne : t.make_ticks_abs.events.map Event.tick ≠ [] := by simpa using hemp
        obtain ⟨e, he, hval⟩ := List.mem_map.mp (getLastD_mem_of_ne hne)
        rw [hlenlast, ← hval]
        exact hnn e he
    have helem : ∀ x ∈ t.make_ticks_abs.events.map Event.tick, x ≤ t.length := by
      intro x hx
      rw [hlenlast]
      exact pairwise_le_getLastD hsort x hx
    have hkn : (((⌊n⌋).toNat : ℚ)) ≤ n := by
      have h2 : (((⌊n⌋).toNat : ℕ) : ℤ) = ⌊n⌋ := Int.toNat_of_nonneg (Int.floor_nonneg.mpr hn)
      have h4 : (((⌊n⌋).toNat : ℕ) : ℚ) = ((⌊n⌋ : ℤ) : ℚ) := by exact_mod_cast h2
      rw [h4]
      exact Int.floor_le n
    have hbound : ∀ e ∈ repeatAbsEvents t n, e.tick ≤ n * t.length := by
      intro e he
      have he' : e ∈ repeatCopies t.make_ticks_abs.events t.length ((⌊n⌋).toNat) ++
          (if 0 < n - (((⌊n⌋).toNat : ℕ) : ℚ) then
            (t.make_ticks_abs.events.filter
              (fun x => decide (x.tick < (n - (((⌊n⌋).toNat : ℕ) : ℚ)) * t.length))).map
              (fun x => x.setTick (x.tick + (((⌊n⌋).toNat : ℕ) : ℚ) * t.length))
           else []) := by
        simpa only [repeatAbsEvents] using he
      rcases List.mem_append.mp he' with hW | hT
      · obtain ⟨e0, he0, i, hik, rfl⟩ := mem_repeatCopies hW
        simp only [Event.tick_setTick]
        have h1 : e0.tick ≤ t.length := helem e0.tick (List.mem_map_of_mem Event.tick he0)
        have h2 : ((i : ℚ) + 1) ≤ (((⌊n⌋).toNat : ℕ) : ℚ) := by exact_mod_cast hik
        have h4 : ((i : ℚ) + 1) * t.length ≤ (((⌊n⌋).toNat : ℕ) : ℚ) * t.length :=
          mul_le_mul_of_nonneg_right h2 hlen0
        have h5 : (((⌊n⌋).toNat : ℕ) : ℚ) * t.length ≤ n * t.length :=
          mul_le_mul_of_nonneg_right hkn hlen0
        nlinarith
      · by_cases hf : 0 < n - (((⌊n⌋).toNat : ℕ) : ℚ)
        · rw [if_pos hf] at hT
          obtain ⟨e0, he0, rfl⟩ := List.mem_map.mp hT
          have hfilter := List.mem_filter.mp he0
          have hlt : e0.tick < (n - (((⌊n⌋).toNat : ℕ) : ℚ)) * t.length :=
            of_decide_eq_true hfilter.2
          simp only [Event.tick_setTick]
          nlinarith
        · rw [if_neg hf] at hT
          simp at hT
    rw [repeatTrack_length]
    by_cases hemp : repeatAbsEvents t n = []
    · rw [hemp]
      simpa using mul_nonneg hn hlen0
    · have hne : (repeatAbsEvents t n).map Event.tick ≠ [] := by simpa using hemp
      obtain ⟨e, he, hval⟩ := List.mem_map.mp (getLastD_mem_of_ne hne)
      rw [← hval]
      exact hbound e he

/-- C4 witness: the theorem applied to a relative track with absolute ticks
2 and 5 (length 5) and n = 3/2; the result has length 7, within n times the
length (15/2). -/
theorem c4_witness :
    ((Track.repeatTrack ⟨[Event.noteOn 60 100 2, Event.noteOff 60 0 3], true⟩ (3/2)).relative
        = true) ∧
    (Track.repeatTrack ⟨[Event.noteOn 60 100 2, Event.noteOff 60 0 3], true⟩ (3/2)).length ≤
      (3/2) * (Track.mk [Event.noteOn 60 100 2, Event.noteOff 60 0 3] true).length := by
  constructor
  · exact (c4_repeatTrack ⟨[Event.noteOn 60 100 2, Event.noteOff 60 0 3], true⟩ (3/2)).1
  · exact (c4_repeatTrack ⟨[Event.noteOn 60 100 2, Event.noteOff 60 0 3], true⟩ (3/2)).2.2.2
      (by norm_num)
      (by norm_num [Track.make_ticks_abs, absAux, Event.setTick, Event.tick,
        List.pairwise_cons])
      (by norm_num [Track.make_ticks_abs, absAux, Event.setTick, Event.tick])

/-- Two tracks with the same Tick Sorter output are indistinguishable to
fractalize_track: its body only reads the input through sort_ticks. -/
theorem fractalize_track_sorted_arg (grq : ℤ → ℤ → ℚ) (res : ℚ) (a b : Track)
    (h : sort_ticks a = sort_ticks b) :
    fractalize_track grq res a = fractalize_track grq res b := by
  simp only [fractalize_track, h]

/-- C2 counterexample: on the track holding a single velocity-0 NoteOn,
fractalize_track fails with IndexError (the positional duration lookup for the
lone NoteOn), while on the normalizer's output — a lone NoteOff — it fails
with the TypeError of reducing an empty sequence.  The results differ, so
fractalize_track does not begin by applying fix_mary; the driver applies
fix_mary separately before calling it. -/
theorem c2_cex :
    fractalize_track (fun _ _ => 1) 4 ⟨[Event.noteOn 60 0 0], true⟩ ≠
      fractalize_track (fun _ _ => 1) 4 (fix_mary ⟨[Event.noteOn 60 0 0], true⟩) := by
  have h1 : fractalize_track (fun _ _ => 1) 4 ⟨[Event.noteOn 60 0 0], true⟩ =
      .error .indexError := by
    norm_num [fractalize_track, sort_ticks, Track.make_ticks_abs, Track.make_ticks_rel,
      absAux, relAux, List.insertionSort, List.orderedInsert, split_header_meta_events,
      shmAux, Event.isMeta, Event.setTick, get_note_info, noteInfoAux, get_root, rootAux,
      Event.isEndOfTrack, Event.isNoteOn]
  have h2 : fix_mary ⟨[Event.noteOn 60 0 0], true⟩ = ⟨[Event.noteOff 60 0 0], true⟩ := by
    norm_num [fix_mary, fixAux]
  have h3 : fractalize_track (fun _ _ => 1) 4 ⟨[Event.noteOff 60 0 0], true⟩ =
      .error .typeError := by
    norm_num [fractalize_track, sort_ticks, Track.make_ticks_abs, Track.make_ticks_rel,
      absAux, relAux, List.insertionSort, List.orderedInsert, split_header_meta_events,
      shmAux, Event.isMeta, Event.setTick, get_note_info, noteInfoAux, get_root, rootAux,
      Event.isEndOfTrack, Event.isNoteOn]
  rw [h1, h2, h3]
  simp

/-- C2 as amended: the first stage fractalize_track applies to its input is
the Tick Sorter, not the Note Normalizer (fix_mary is invoked separately by
the driver before fractalize_track); accordingly its result on any track
equals its result on the sorter's output of that track. -/
theorem c2_fractalize_track_sort_first (grq : ℤ → ℤ → ℚ) (res : ℚ) (t : Track) :
    fractalize_track grq res t = fractalize_track grq res (sort_ticks t) :=
  fractalize_track_sorted_arg grq res t (sort_ticks t) (sort_ticks_idem t).symm

/-- C3 counterexample: on a track with no NoteOn event, get_root returns
Python None rather than raising — the source defines no EmptyMelodyError
anywhere — and fractalize_track fails with the TypeError of reducing an empty
sequence, not with an EmptyMelodyError propagated out of get_root. -/
theorem c3_cex :
    get_root ⟨[Event.meta 0 [] 0], true⟩ = none ∧
    fractalize_track (fun _ _ => 1) 4 ⟨[Event.meta 0 [] 0], true⟩ =
      Except.error Err.typeError ∧
    fractalize_track (fun _ _ => 1) 4 ⟨[Event.meta 0 [] 0], true⟩ ≠
      Except.error Err.emptyMelody := by
  have h2 : fractalize_track (fun _ _ => 1) 4 ⟨[Event.meta 0 [] 0], true⟩ =
      Except.error Err.typeError := by
    norm_num [fractalize_track, sort_ticks, Track.make_ticks_abs, Track.make_ticks_rel,
      absAux, relAux, List.insertionSort, List.orderedInsert, split_header_meta_events,
      shmAux, Event.isMeta, Event.setTick, get_note_info, noteInfoAux, get_root, rootAux,
      Event.isEndOfTrack, Event.isNoteOn]
  refine ⟨rfl, h2, ?_⟩
  rw [h2]
  simp

/-- C3 as amended: get_root returns the pitch of the first NoteOn in track
order, and None (no exception) when no NoteOn exists — the code defines no
EmptyMelodyError; on a nonempty track without NoteOn events fractalize_track
fails with a TypeError from reducing an empty sequence, and on an empty track
with an IndexError from the body[-1] terminator check. -/
theorem c3_get_root_and_errors (t : Track) :
    (get_root t = (t.events.find? (fun e => e.isNoteOn)).map Event.pitchD) ∧
    ((∀ e ∈ t.events, e.isNoteOn = false) → get_root t = none) ∧
    (∀ (grq : ℤ → ℤ → ℚ) (res : ℚ), t.events ≠ [] →
      (∀ e ∈ t.events, e.isNoteOn = false) →
      fractalize_track grq res t = Except.error Err.typeError) ∧
    (∀ (grq : ℤ → ℤ → ℚ) (res : ℚ), t.events = [] →
      fractalize_track grq res t = Except.error Err.indexError) := by
  refine ⟨rootAux_eq_find t.events, fun h => rootAux_of_noOn h, ?_, ?_⟩
  · intro grq res hne hno
    have hno1 : ∀ e ∈ (sort_ticks t).events, e.isNoteOn = false := noOn_sort_ticks hno
    have hne1 : (sort_ticks t).events ≠ [] := by
      intro h0
      apply hne
      have hlen := sort_ticks_events_len t
      rw [h0] at hlen
      exact List.length_eq_zero.mp hlen.symm
    have hbody := split_body_ne (sort_ticks t) hne1
    have hgl : ∃ x, (split_header_meta_events (sort_ticks t)).2.events.getLast? = some x := by
      cases hx : (split_header_meta_events (sort_ticks t)).2.events.getLast? with
      | none => exact absurd (List.getLast?_eq_none_iff.mp hx) hbody
      | some x => exact ⟨x, rfl⟩
    obtain ⟨x, hx⟩ := hgl
    have hni : get_note_info (sort_ticks t) = some [] := noteInfoAux_of_noOn hno1
    have hroot : get_root (sort_ticks t) = none := rootAux_of_noOn hno1
    simp only [fractalize_track, hx, hni, hroot]
  · intro grq res hnil
    rcases t with ⟨evs, rel⟩
    simp only at hnil
    subst hnil
    cases rel <;> rfl

/-- C3 witness: the theorem applied to a two-event melody (root 60), to a
nonempty track without NoteOn events, and to the empty track. -/
theorem c3_witness :
    get_root ⟨[Event.noteOn 60 100 0, Event.meta 0 [] 2], true⟩ = some 60 ∧
    fractalize_track (fun _ _ => 1) 4 ⟨[Event.endOfTrack 3], true⟩ =
      Except.error Err.typeError ∧
    fractalize_track (fun _ _ => 1) 4 ⟨[], true⟩ = Except.error Err.indexError := by
  refine ⟨?_, ?_, ?_⟩
  · have h := (c3_get_root_and_errors ⟨[Event.noteOn 60 100 0, Event.meta 0 [] 2], true⟩).1
    rw [h]
    norm_num [List.find?, Event.isNoteOn, Event.pitchD]
  · exact (c3_get_root_and_errors ⟨[Event.endOfTrack 3], true⟩).2.2.1 (fun _ _ => 1) 4
      (by simp) (by decide)
  · exact (c3_get_root_and_errors ⟨[], true⟩).2.2.2 (fun _ _ => 1) 4 rfl

end FractalMidi
